import Mathlib

/-!
Shallow embedding of the NOVAMART analytics dashboard's aggregation,
chart-preparation and formatting layer, together with proofs about the
claims made by its specification.

Sources embedded:
  * `src/utils/visualizations.py` — `create_confusion_matrix_plot`,
    `create_roc_curve_plot`, `create_learning_curve_plot`,
    `create_feature_importance_plot`, `format_number`;
  * `src/pages/campaign_analytics.py` — cumulative conversions block;
  * `src/page_modules/customer_insights.py`,
    `src/page_modules/executive_overview.py` — groupby aggregations;
  * `src/pages/geographic_analysis.py` — `idxmax`-based extremum rows.

Library calls (`sklearn.metrics.confusion_matrix`, `roc_curve`, `auc`,
pandas `groupby`/`agg`/`cumsum`/`idxmax`) are embedded according to the
documented semantics those libraries implement, since the repository
delegates to them directly.
-/

/-! ## Confusion matrix (sklearn.metrics.confusion_matrix)

`confusion_matrix(y_true, y_pred)` builds the sorted list of distinct
labels occurring in either argument and returns the square matrix whose
`(i, j)` entry counts positions where the actual label is `labels[i]`
and the predicted label is `labels[j]`. -/

/-- Insert a value into an ascending, duplicate-free list, keeping it
ascending and duplicate-free. -/
def insertAsc (x : ℕ) : List ℕ → List ℕ
  | [] => [x]
  | y :: ys => if x < y then x :: y :: ys else if x = y then y :: ys else y :: insertAsc x ys

/-- Sorted distinct values of a list, ascending — the label vector
`numpy.unique` produces inside `confusion_matrix`. -/
def uniqueSorted : List ℕ → List ℕ
  | [] => []
  | x :: xs => insertAsc x (uniqueSorted xs)

/-- Number of positions where the actual label is `a` and the predicted
label is `p`. -/
def cmCount (yTrue yPred : List ℕ) (a p : ℕ) : ℕ :=
  (yTrue.zip yPred).countP (fun x => x.1 == a && x.2 == p)

/-- Embedding of `sklearn.metrics.confusion_matrix` as called by
`create_confusion_matrix_plot` (src/utils/visualizations.py:449): a
square count matrix over the sorted distinct labels present in either
input. -/
def confusionMatrix (yTrue yPred : List ℕ) : List (List ℕ) :=
  let labels := uniqueSorted (yTrue ++ yPred)
  labels.map (fun a => labels.map (fun p => cmCount yTrue yPred a p))

/-! ## ROC curve and AUC (sklearn.metrics.roc_curve / auc)

`create_roc_curve_plot` (src/utils/visualizations.py:467-503) calls
`roc_curve(y_true, y_pred_proba)` then `auc(fpr, tpr)`.  `roc_curve`
sweeps the distinct scores in descending order as thresholds; at each
threshold the cumulative false/true positive counts are taken over all
positions whose score is at least the threshold, and a `(0, 0)` point is
prepended.  Rates divide by the total negative/positive count; when a
class is absent sklearn emits the rate array as NaN (modelled `none`)
instead of raising.  `auc` integrates by the trapezoid rule.
`drop_intermediate` only removes collinear interior points and does not
change the trapezoidal area, so it is not modelled. -/

/-- Insert into a descending, duplicate-free list. -/
def insertDesc (x : ℚ) : List ℚ → List ℚ
  | [] => [x]
  | y :: ys => if x > y then x :: y :: ys else if x = y then y :: ys else y :: insertDesc x ys

/-- Distinct score values in descending order — the threshold sweep of
`roc_curve`. -/
def distinctDesc : List ℚ → List ℚ
  | [] => []
  | x :: xs => insertDesc x (distinctDesc xs)

/-- Number of positives in the actual labels (positive label is `1`). -/
def posCount (yTrue : List ℕ) : ℕ := yTrue.countP (· == 1)

/-- Number of negatives in the actual labels. -/
def negCount (yTrue : List ℕ) : ℕ := yTrue.countP (· != 1)

/-- Cumulative true positives at threshold `t`: positions predicted at
least `t` whose actual label is positive. -/
def tpsAt (yTrue : List ℕ) (scores : List ℚ) (t : ℚ) : ℕ :=
  (yTrue.zip scores).countP (fun x => x.1 == 1 && decide (t ≤ x.2))

/-- Cumulative false positives at threshold `t`. -/
def fpsAt (yTrue : List ℕ) (scores : List ℚ) (t : ℚ) : ℕ :=
  (yTrue.zip scores).countP (fun x => x.1 != 1 && decide (t ≤ x.2))

/-- Raw `(fps, tps)` curve points: the prepended origin followed by one
point per distinct threshold, in descending threshold order. -/
def rocRawPoints (yTrue : List ℕ) (scores : List ℚ) : List (ℕ × ℕ) :=
  (0, 0) :: (distinctDesc scores).map (fun t => (fpsAt yTrue scores t, tpsAt yTrue scores t))

/-- Trapezoid-rule integral of a polyline, as `numpy.trapz` inside
`sklearn.metrics.auc`. -/
def trapz : List (ℚ × ℚ) → ℚ
  | [] => 0
  | [_] => 0
  | p :: q :: rest => (q.1 - p.1) * (p.2 + q.2) / 2 + trapz (q :: rest)

/-- Result of the ROC plot routine: the rate series (NaN modelled as
`none`) and the AUC annotated on the figure. -/
structure RocResult where
  fpr : List (Option ℚ)
  tpr : List (Option ℚ)
  auc : Option ℚ
  deriving DecidableEq

/-- Embedding of `create_roc_curve_plot`
(src/utils/visualizations.py:467-503): computes the ROC points and the
trapezoidal AUC; with a single-class input the corresponding rate series
and the AUC are NaN (`none`) and the routine still returns a figure. -/
def create_roc_curve_plot (yTrue : List ℕ) (scores : List ℚ) : RocResult :=
  let P := posCount yTrue
  let N := negCount yTrue
  let pts := rocRawPoints yTrue scores
  { fpr := pts.map (fun p => if N = 0 then none else some ((p.1 : ℚ) / N))
    tpr := pts.map (fun p => if P = 0 then none else some ((p.2 : ℚ) / P))
    auc := if N = 0 ∨ P = 0 then none
           else some (trapz (pts.map (fun p => ((p.1 : ℚ) / N, (p.2 : ℚ) / P)))) }

/-! ## Chart-preparation column resolution

`create_feature_importance_plot` (src/utils/visualizations.py:571-627)
and `create_learning_curve_plot` (src/utils/visualizations.py:506-568)
resolve their column bindings by probing the table: the outcome depends
only on the column names (and which columns are numeric), which is what
is embedded here. -/

/-- Outcome of the feature-importance column resolution. -/
inductive FIResult where
  /-- A figure was produced, bound to the given name/importance columns,
  with or without error bars. -/
  | fig (nameCol importanceCol : String) (errorBars : Bool)
  /-- The fallback figure carrying only a text message. -/
  | noData (msg : String)
  /-- An uncaught `KeyError` on the given column. -/
  | keyErr (col : String)
  deriving DecidableEq

/-- The importance-column resolution of `create_feature_importance_plot`
(src/utils/visualizations.py:577-588): `cols` lists the table's columns
as (name, is-numeric) pairs in table order; sorting by an absent column
raises `KeyError`, caught by substituting the first numeric column, and
`none` means no numeric column existed either. -/
def fiImportanceChoice (cols : List (String × Bool)) (importanceCol : String) :
    Option String :=
  if importanceCol ∈ cols.map Prod.fst then some importanceCol
  else ((cols.filter Prod.snd).map Prod.fst).head?

/-- The name-column resolution of `create_feature_importance_plot`
(src/utils/visualizations.py:591-596): if `nameCol` is absent, the first
column differing from the resolved importance column and from `stdCol`
is substituted; with no such column the absent `nameCol` is kept. -/
def fiNameChoice (names : List String) (nameCol imp stdCol : String) : String :=
  if nameCol ∈ names then nameCol
  else (names.filter (fun c => decide (c ≠ imp) && decide (c ≠ stdCol))).headD nameCol

/-- Embedding of the column resolution performed by
`create_feature_importance_plot` (src/utils/visualizations.py:571-627):
a figure bound to the resolved columns, with error bars exactly when
`stdCol` is present; a message figure when no importance column could
be resolved; an uncaught `KeyError` when the resolved name column is
still absent from the table. -/
def featureImportanceResolve (cols : List (String × Bool))
    (nameCol importanceCol stdCol : String) : FIResult :=
  match fiImportanceChoice cols importanceCol with
  | none => .noData "No numeric columns found for importance"
  | some imp =>
    let nm := fiNameChoice (cols.map Prod.fst) nameCol imp stdCol
    if nm ∈ cols.map Prod.fst then .fig nm imp (stdCol ∈ cols.map Prod.fst)
    else .keyErr nm

/-- Substring test on character lists: does `needle` occur inside
`hay`? -/
def charsContain (hay needle : List Char) : Bool :=
  match hay with
  | [] => needle.isEmpty
  | _ :: tl => needle.isPrefixOf hay || charsContain tl needle

/-- Substring test on strings, modelling Python's `in` operator. -/
def strContains (hay needle : String) : Bool :=
  charsContain hay.toList needle.toList

/-- ASCII lowercase of a character (the column names of this repository
are ASCII, so Python's `str.lower` restricts to this). -/
def lowerChar (c : Char) : Char :=
  if 'A' ≤ c ∧ c ≤ 'Z' then Char.ofNat (c.toNat + 32) else c

/-- ASCII lowercase of a string, modelling `col.lower()`. -/
def lowerStr (s : String) : String := String.mk (s.toList.map lowerChar)

/-- Accumulator of the column-probing loop in
`create_learning_curve_plot`. -/
structure LCCols where
  x : Option String
  train : Option String
  val : Option String
  deriving DecidableEq

/-- The probing loop of `create_learning_curve_plot`
(src/utils/visualizations.py:516-523): each column is matched against
lowercase substrings, later matches overwriting earlier ones, and a
column matching the x-axis patterns is not considered for the other
roles (the source uses an if/elif chain). -/
def lcScan (acc : LCCols) : List String → LCCols
  | [] => acc
  | c :: cs =>
    let cl := lowerStr c
    if strContains cl "training_set" || strContains cl "train_size" ||
        strContains cl "set_size" then
      lcScan { acc with x := some c } cs
    else if strContains cl "train" && strContains cl "score" then
      lcScan { acc with train := some c } cs
    else if strContains cl "val" && strContains cl "score" then
      lcScan { acc with val := some c } cs
    else
      lcScan acc cs

/-- Outcome of the learning-curve column resolution. -/
inductive LCResult where
  /-- A figure with the resolved x / training / validation columns. -/
  | fig (xCol trainCol valCol : String)
  /-- The message figure returned when train/validation columns cannot
  be resolved. -/
  | noData
  /-- `data.columns[0]` on an empty column list. -/
  | idxErr
  deriving DecidableEq

/-- Embedding of the column resolution of `create_learning_curve_plot`
(src/utils/visualizations.py:510-537): after the probing loop, absent
bindings fall back positionally to the first, second and third column;
if the training or validation column still cannot be resolved a message
figure is returned instead of an error naming the missing binding. -/
def learningCurveResolve (cols : List String) : LCResult :=
  let s := lcScan ⟨none, none, none⟩ cols
  match s.x.orElse (fun _ => cols.get? 0) with
  | none => .idxErr
  | some x =>
    let train := s.train.orElse (fun _ => if cols.length > 1 then cols.get? 1 else none)
    let val := s.val.orElse (fun _ => if cols.length > 2 then cols.get? 2 else none)
    match train, val with
    | some t, some v => .fig x t v
    | _, _ => .noData

/-! ## Series reductions (pandas mean / std with ddof=1)

The groupby aggregations in `src/page_modules/customer_insights.py:85-91`
and `src/page_modules/executive_overview.py:149-157` apply pandas
reductions per column per group.  pandas skips nulls; a reduction over a
group with no non-null values yields NaN (modelled `none`) and `std`
uses `ddof=1`, so it also yields NaN on a single-element group.  No
exception is raised in any case. -/

/-- The non-null values of a series (pandas `skipna`). -/
def nonNull (l : List (Option ℚ)) : List ℚ := l.filterMap id

/-- pandas `count`: the number of non-null values. -/
def seriesCount (l : List (Option ℚ)) : ℕ := (nonNull l).length

/-- Sum of the non-null values. -/
def seriesSum (l : List (Option ℚ)) : ℚ := (nonNull l).sum

/-- pandas `mean`: NaN (`none`) when there is no non-null value. -/
def seriesMean (l : List (Option ℚ)) : Option ℚ :=
  if seriesCount l = 0 then none else some (seriesSum l / seriesCount l)

/-- pandas `var` with `ddof=1` (the square of `std`; defined exactly
when `std` is, so NaN-ness of `std` equals NaN-ness of this value):
NaN (`none`) when fewer than two non-null values are present. -/
def seriesVar (l : List (Option ℚ)) : Option ℚ :=
  if seriesCount l ≤ 1 then none
  else
    some ((((nonNull l).map
      (fun x => (x - seriesSum l / seriesCount l) ^ 2)).sum) / (seriesCount l - 1))

/-- Embedding of `groupby(K).agg(mean, std)` over a table `T` whose
value column may contain nulls: one output row per distinct key, in
order of first appearance, carrying the group's mean and variance. -/
def groupbyMeanVar {α κ : Type} [DecidableEq κ] (K : α → κ) (val : α → Option ℚ)
    (T : List α) : List (κ × (Option ℚ × Option ℚ)) :=
  ((T.map K).dedup).map (fun k =>
    (k, (seriesMean ((T.filter (fun r => K r == k)).map val),
         seriesVar ((T.filter (fun r => K r == k)).map val))))

/-! ## Grouped row counts

`customer_df.groupby('customer_segment').agg({'customer_id': 'count', ...})`
(src/page_modules/customer_insights.py:191-203): one row per distinct
key value, counting the rows of the group. -/

/-- Embedding of a groupby with a count reduction: one `(key, row
count)` pair per distinct key value of `K` in `T`. -/
def groupbyCount {α κ : Type} [DecidableEq κ] (K : α → κ) (T : List α) :
    List (κ × ℕ) :=
  ((T.map K).dedup).map (fun k => (k, T.countP (fun r => K r == k)))

/-! ## Extremum rows (pandas idxmax / idxmin + loc)

`geo_df.loc[geo_df['revenue'].idxmax(), ...]`
(src/pages/geographic_analysis.py:54-66) and
`campaign_df.groupby('channel')['revenue'].sum().idxmax()`
(src/page_modules/executive_overview.py:122): pandas `idxmax` returns
the first index at which the maximum is attained, `idxmin` the first
index of the minimum, and `.loc` retrieves the full row there. -/

/-- Index of the first entry no other entry beats under `better`:
with `better = (· > ·)` this is pandas `idxmax` (first occurrence of
the maximum), with `better = (· < ·)` pandas `idxmin`. -/
def idxBest (better : ℚ → ℚ → Prop) [DecidableRel better] : List ℚ → ℕ
  | [] => 0
  | [_] => 0
  | x :: y :: ys =>
    if better ((y :: ys).getD (idxBest better (y :: ys)) 0) x then
      idxBest better (y :: ys) + 1
    else 0

/-- pandas `Series.idxmax` on positional indices. -/
def idxmax (l : List ℚ) : ℕ := idxBest (fun a b => b < a) l

/-- pandas `Series.idxmin` on positional indices. -/
def idxmin (l : List ℚ) : ℕ := idxBest (fun a b => a < b) l

/-- The full row at which column `f` is maximal:
`T.loc[T[col].idxmax()]`. -/
def rowAtMax {α : Type} (T : List α) (f : α → ℚ) : Option α :=
  T.get? (idxmax (T.map f))

/-- The full row at which column `f` is minimal:
`T.loc[T[col].idxmin()]`. -/
def rowAtMin {α : Type} (T : List α) (f : α → ℚ) : Option α :=
  T.get? (idxmin (T.map f))

/-! ## Number formatting (format_number)

`format_number` (src/utils/visualizations.py:659-672) picks a magnitude
suffix by thresholds on the absolute value and renders the scaled value
with Python's fixed-point `:.{decimals}f` format, which rounds half to
even and keeps the sign of a negative input. -/

/-- Nearest integer to a rational, ties going to the even integer —
the rounding of Python's fixed-point float formatting (the
representation error of binary floats is outside this model). -/
def roundHalfEven (q : ℚ) : ℤ :=
  let f := ⌊q⌋
  let frac := q - f
  if frac < 1 / 2 then f
  else if 1 / 2 < frac then f + 1
  else if f % 2 = 0 then f else f + 1

/-- Left-pad a string with zeros to length `d`. -/
def padZeros (s : String) (d : ℕ) : String :=
  if d ≤ s.length then s else String.mk (List.replicate (d - s.length) '0') ++ s

/-- Python's `f"{q:.{d}f}"` on an exact rational: sign of the input,
then the absolute value rounded half-to-even at `d` decimals. -/
def fixedFormat (q : ℚ) (d : ℕ) : String :=
  let sign := if q < 0 then "-" else ""
  let n := (roundHalfEven (|q| * (10 : ℚ) ^ d)).toNat
  if d = 0 then sign ++ toString n
  else sign ++ toString (n / 10 ^ d) ++ "." ++ padZeros (toString (n % 10 ^ d)) d

/-- Embedding of `format_number(num, prefix, decimals)`
(src/utils/visualizations.py:659-672): suffix B above 1e9, M above 1e6,
K above 1e3 (thresholds on the absolute value), else plain, the scaled
value rendered at the requested number of decimals. -/
def format_number (num : ℚ) (pre : String) (decimals : ℕ) : String :=
  let a := |num|
  if a ≥ 10 ^ 9 then pre ++ fixedFormat (num / 10 ^ 9) decimals ++ "B"
  else if a ≥ 10 ^ 6 then pre ++ fixedFormat (num / 10 ^ 6) decimals ++ "M"
  else if a ≥ 10 ^ 3 then pre ++ fixedFormat (num / 10 ^ 3) decimals ++ "K"
  else pre ++ fixedFormat num decimals

/-- First character of a string, if any. -/
def strHead (s : String) : Option Char := s.data.head?

/-! ## Cumulative conversions (campaign_analytics)

`src/pages/campaign_analytics.py:100-105`:
`cumulative_df.sort_values('date')` followed by
`groupby('channel')['conversions'].cumsum()`.  The running sum is taken
per channel in the sorted row order.  The sort is embedded as a stable
insertion sort (ties keep original row order); the source's
`sort_values` defaults to an unstable quicksort, which is the divergence
recorded against the specification's stable-sort requirement. -/

/-- Stable insertion of a row into a list sorted by `dateOf`: the new
row goes after all rows with a date not exceeding its own. -/
def insertByDate {α : Type} (dateOf : α → ℕ) (r : α) : List α → List α
  | [] => [r]
  | y :: ys => if dateOf r ≤ dateOf y then r :: y :: ys else y :: insertByDate dateOf r ys

/-- Stable sort of the rows by date (`sort_values('date')` with stable
tie-breaking). -/
def sortByDate {α : Type} (dateOf : α → ℕ) (l : List α) : List α :=
  l.foldr (insertByDate dateOf) []

/-- Helper of `groupCumsum`: `seen` holds the rows already passed, and
each emitted value is the sum of the value column over the rows of the
current row's group seen so far, the current row included. -/
def groupCumsumAux {α κ : Type} [BEq κ] (key : α → κ) (val : α → ℚ)
    (seen : List α) : List α → List (α × ℚ)
  | [] => []
  | r :: rs =>
    (r, (((seen ++ [r]).filter (fun x => key x == key r)).map val).sum) ::
      groupCumsumAux key val (seen ++ [r]) rs

/-- Embedding of `groupby(key)[val].cumsum()`: each row is paired with
the running sum of `val` over its own group, in row order. -/
def groupCumsum {α κ : Type} [BEq κ] (key : α → κ) (val : α → ℚ)
    (rows : List α) : List (α × ℚ) :=
  groupCumsumAux key val [] rows

/-! ## Theorems -/

/-- Claim C9: for the perfectly separated input `actual = [0,0,1,1]`,
`scores = [0.1, 0.2, 0.8, 0.9]`, the ROC routine's trapezoid-rule area
under the curve equals 1. -/
theorem roc_auc_perfect_separation :
    (create_roc_curve_plot [0, 0, 1, 1] [1/10, 2/10, 8/10, 9/10]).auc = some 1 := by
  norm_num [create_roc_curve_plot, rocRawPoints, distinctDesc, insertDesc, fpsAt, tpsAt,
    posCount, negCount, trapz, List.countP_cons, List.countP_nil]

/-- Claim C2 (supporting evaluation): sorting the example campaign table
by date and taking the per-channel running sum of conversions pairs each
row with its cumulative value; the "ads" group, whose ordered values are
[10, 5, 15], receives the cumulative outputs [10, 15, 30]. -/
theorem cumulativeConversions_example :
    groupCumsum (fun r : ℕ × String × ℚ => r.2.1) (fun r => r.2.2)
        (sortByDate (fun r => r.1)
          [(3, ("ads", 15)), (1, ("ads", 10)), (2, ("email", 7)), (2, ("ads", 5))]) =
      [((1, ("ads", 10)), 10), ((2, ("email", 7)), 7), ((2, ("ads", 5)), 15),
        ((3, ("ads", 15)), 30)] ∧
    ((groupCumsum (fun r : ℕ × String × ℚ => r.2.1) (fun r => r.2.2)
        (sortByDate (fun r => r.1)
          [(3, ("ads", 15)), (1, ("ads", 10)), (2, ("email", 7)), (2, ("ads", 5))])).filter
        (fun p => p.1.2.1 == "ads")).map Prod.snd = [10, 15, 30] := by
  norm_num [groupCumsum, groupCumsumAux, sortByDate, insertByDate, List.filter_cons,
    List.filter_nil, (show "ads" ≠ "email" by decide), (show "email" ≠ "ads" by decide)]

/-- Claim C4 (counterexample): a mean or std reduction over a group with
no non-null values yields NaN (`none`) — also in the derived table of a
groupby aggregation — instead of failing with an `EmptyGroupError`. -/
theorem emptyGroup_mean_var_nan :
    seriesMean [] = none ∧ seriesVar [] = none ∧
    groupbyMeanVar (fun r : String × Option ℚ => r.1) Prod.snd [("a", none)] =
      [("a", (none, none))] := by
  norm_num [seriesMean, seriesVar, seriesCount, nonNull, groupbyMeanVar, List.dedup,
    seriesSum]

/-- Claim C4 (amended): the pandas-style reductions are total — a group
with no non-null values gets NaN (`none`) for mean and std, a group with
a single non-null value gets NaN for std (ddof = 1), and any other group
gets its mean value; no error is ever raised. -/
theorem seriesAgg_nan_policy :
    ∀ l : List (Option ℚ),
      (seriesCount l = 0 → seriesMean l = none ∧ seriesVar l = none) ∧
      (seriesCount l ≤ 1 → seriesVar l = none) ∧
      (seriesCount l ≠ 0 → seriesMean l = some (seriesSum l / seriesCount l)) := by
  intro l
  refine ⟨fun h => ⟨?_, ?_⟩, fun h => ?_, fun h => ?_⟩
  · simp [seriesMean, h]
  · simp [seriesVar, h]
  · simp [seriesVar, h]
  · simp [seriesMean, h]

/-- Witness for `seriesAgg_nan_policy` at the empty series. -/
theorem seriesAgg_nan_policy_witness :
    seriesMean ([none] : List (Option ℚ)) = none ∧
    seriesVar ([none] : List (Option ℚ)) = none :=
  (seriesAgg_nan_policy [none]).1 (by decide)

/-- Claim C7: grouping a table on a key with a count reduction yields
groups whose row counts sum to the length of the table — the distinct
key values partition the rows. -/
theorem groupbyCount_sum_len {α κ : Type} [DecidableEq κ] (K : α → κ) (T : List α) :
    ((groupbyCount K T).map Prod.snd).sum = T.length := by
  unfold groupbyCount
  rw [List.map_map]
  have h1 : (Prod.snd ∘ fun k => (k, T.countP (fun r => K r == k))) =
      fun k => (T.map K).count k := by
    funext k
    simp only [Function.comp_apply]
    rw [List.count_eq_countP, List.countP_map]
    rfl
  rw [h1]
  have := List.sum_map_count_dedup_eq_length (T.map K)
  simpa using this

/-- Witness for `groupbyCount_sum_len` at a concrete table. -/
theorem groupbyCount_sum_len_witness :
    ((groupbyCount (fun r : ℕ × ℕ => r.2) [(1, 10), (2, 20), (3, 10)]).map
      Prod.snd).sum = ([(1, 10), (2, 20), (3, 10)] : List (ℕ × ℕ)).length :=
  groupbyCount_sum_len (fun r : ℕ × ℕ => r.2) [(1, 10), (2, 20), (3, 10)]

/-- Claim C5 (counterexample): with the single-class input
`actual = [0, 0]`, `scores = [0.1, 0.2]`, the ROC routine does not fail:
it returns a figure whose true-positive rates and AUC are NaN (`none`)
and whose false-positive rates form a degenerate curve. -/
theorem roc_single_class_counterexample :
    (create_roc_curve_plot [0, 0] [1/10, 2/10]).auc = none ∧
    (create_roc_curve_plot [0, 0] [1/10, 2/10]).tpr = [none, none, none] ∧
    (create_roc_curve_plot [0, 0] [1/10, 2/10]).fpr =
      [some 0, some (1/2), some 1] := by
  norm_num [create_roc_curve_plot, rocRawPoints, distinctDesc, insertDesc, fpsAt, tpsAt,
    posCount, negCount, List.countP_cons, List.countP_nil]

/-- Claim C5 (amended): whenever all actual labels are identical, the
ROC routine returns a result whose AUC is NaN (`none`) — a degenerate
curve — rather than failing with a `SingleClassError`. -/
theorem roc_single_class_nan_auc :
    ∀ (yTrue : List ℕ) (scores : List ℚ) (c : ℕ), yTrue ≠ [] →
      (∀ y ∈ yTrue, y = c) → (create_roc_curve_plot yTrue scores).auc = none := by
  intro yt sc c _ hall
  have hpn : negCount yt = 0 ∨ posCount yt = 0 := by
    by_cases hc : c = 1
    · left
      unfold negCount
      rw [List.countP_eq_zero]
      intro a ha
      have := hall a ha
      simp [this, hc]
    · right
      unfold posCount
      rw [List.countP_eq_zero]
      intro a ha
      have := hall a ha
      simp [this, hc]
  rcases hpn with h | h <;> simp [create_roc_curve_plot, h]

/-- Witness for `roc_single_class_nan_auc` with all labels positive. -/
theorem roc_single_class_nan_auc_witness :
    (create_roc_curve_plot [1, 1] [3/10, 4/10]).auc = none :=
  roc_single_class_nan_auc [1, 1] [3/10, 4/10] 1 (by decide) (by decide)

/-- Claim C1 (counterexample): for `actual = [0, 0]`,
`predicted = [0, 0]` (equal-length binary-label sequences), the
confusion-matrix computation returns the 1×1 matrix `[[2]]`, which does
not decompose into four cells summing to the input length. -/
theorem confusionMatrix_single_label_not_four_cells :
    confusionMatrix [0, 0] [0, 0] = [[2]] ∧
    (confusionMatrix [0, 0] [0, 0]).flatten.length ≠ 4 := by
  decide

/-- Claim C3 (counterexample): on a table with columns
`[feat (non-numeric), x (numeric)]`, where the required importance
binding "importance" is absent, the feature-importance preparation does
not fail naming the missing column: it silently substitutes the numeric
column `x` for the importance binding and `feat` for the name binding
and produces a figure. -/
theorem featureImportance_substitutes_counterexample :
    featureImportanceResolve [("feat", false), ("x", true)] "feature" "importance" "std" =
      .fig "feat" "x" false ∧
    "importance" ∉ (([("feat", false), ("x", true)] : List (String × Bool)).map
      Prod.fst) := by
  decide

/-- Claim C3 (amended): when the required importance binding is absent,
the feature-importance preparation does not fail with `MissingColumn`:
with no numeric column it returns a message figure, and otherwise it
silently substitutes the first numeric column for the importance binding
(the result is a figure bound to that substitute, or an uncaught
`KeyError` on the name binding when no substitute name column exists);
the learning-curve preparation likewise falls back to positional
columns, as on a table with columns `a`, `b`, `c`. -/
theorem chartPrep_fallback_behavior :
    (∀ (cols : List (String × Bool)) (nc sc : String),
      "importance" ∉ cols.map Prod.fst →
      ((cols.filter Prod.snd).map Prod.fst = [] →
        featureImportanceResolve cols nc "importance" sc =
          .noData "No numeric columns found for importance") ∧
      (∀ c rest, (cols.filter Prod.snd).map Prod.fst = c :: rest →
        (∃ nm eb, featureImportanceResolve cols nc "importance" sc = .fig nm c eb) ∨
        featureImportanceResolve cols nc "importance" sc = .keyErr nc)) ∧
    learningCurveResolve ["a", "b", "c"] = .fig "a" "b" "c" := by
  constructor
  · intro cols nc sc himp
    constructor
    · intro hfil
      have h1 : fiImportanceChoice cols "importance" = none := by
        rw [fiImportanceChoice, if_neg himp, hfil]
        rfl
      rw [featureImportanceResolve, h1]
    · intro c rest hfil
      have h1 : fiImportanceChoice cols "importance" = some c := by
        rw [fiImportanceChoice, if_neg himp, hfil]
        rfl
      rw [featureImportanceResolve, h1]
      by_cases hnc : nc ∈ cols.map Prod.fst
      · have h2 : fiNameChoice (cols.map Prod.fst) nc c sc = nc := by
          rw [fiNameChoice, if_pos hnc]
        left
        refine ⟨nc, decide (sc ∈ cols.map Prod.fst), ?_⟩
        simp only [h2]
        rw [if_pos hnc]
      · have h2 : fiNameChoice (cols.map Prod.fst) nc c sc =
            ((cols.map Prod.fst).filter
              (fun x => decide (x ≠ c) && decide (x ≠ sc))).headD nc := by
          rw [fiNameChoice, if_neg hnc]
        cases hflt : (cols.map Prod.fst).filter
            (fun x => decide (x ≠ c) && decide (x ≠ sc)) with
        | nil =>
          right
          simp only [h2, hflt, List.headD_nil]
          exact if_neg hnc
        | cons c' rest' =>
          left
          have hc' : c' ∈ cols.map Prod.fst := by
            apply List.mem_of_mem_filter (p := fun x => decide (x ≠ c) && decide (x ≠ sc))
            rw [hflt]
            exact List.mem_cons_self _ _
          refine ⟨c', decide (sc ∈ cols.map Prod.fst), ?_⟩
          simp only [h2, hflt, List.headD_cons]
          rw [if_pos hc']
  · decide

/-- Witness for `chartPrep_fallback_behavior` on a table whose
importance column is missing but which has the numeric column `x`. -/
theorem chartPrep_fallback_behavior_witness :
    (∃ nm eb, featureImportanceResolve [("feat", false), ("x", true)]
      "feature" "importance" "std" = .fig nm "x" eb) ∨
    featureImportanceResolve [("feat", false), ("x", true)]
      "feature" "importance" "std" = .keyErr "feature" :=
  (chartPrep_fallback_behavior.1 [("feat", false), ("x", true)] "feature" "std"
    (by decide)).2 "x" [] (by decide)

/-- Helper: the first character of a concatenation is the first
character of its non-empty left part. -/
theorem strHead_append_of_head (s t : String) (c : Char) (h : strHead s = some c) :
    strHead (s ++ t) = some c := by
  simp only [strHead, String.data_append] at h ⊢
  cases hs : s.data with
  | nil => rw [hs] at h; simp at h
  | cons a l => rw [hs] at h; simpa using h

/-- Helper: the fixed-point rendering of a negative rational starts with
a minus sign. -/
theorem fixedFormat_neg_head (q : ℚ) (d : ℕ) (hq : q < 0) :
    strHead (fixedFormat q d) = some '-' := by
  simp only [fixedFormat]
  rw [if_pos hq]
  by_cases hd : d = 0
  · rw [if_pos hd]
    apply strHead_append_of_head
    rfl
  · rw [if_neg hd]
    apply strHead_append_of_head
    apply strHead_append_of_head
    apply strHead_append_of_head
    rfl

/-- Claim C8: `format_number` renders `999` at 0 decimals as "999",
`1500` at 1 decimal as "1.5K", `2300000` at 0 decimals as "2M" and
`-5000` at 0 decimals as "-5K"; in general it renders `v / 1e9` with
suffix B when `|v| ≥ 1e9`, else `v / 1e6` with suffix M when
`|v| ≥ 1e6`, else `v / 1e3` with suffix K when `|v| ≥ 1e3`, else `v`
plain, at the requested number of decimals, preserving the sign of a
negative input (the rendering starts with a minus sign) and agreeing on
a non-negative input with the rendering of its absolute value. -/
theorem format_number_spec :
    (format_number 999 "" 0 = "999" ∧ format_number 1500 "" 1 = "1.5K" ∧
      format_number 2300000 "" 0 = "2M" ∧ format_number (-5000) "" 0 = "-5K") ∧
    ∀ (v : ℚ) (d : ℕ),
      (10 ^ 9 ≤ |v| → format_number v "" d = fixedFormat (v / 10 ^ 9) d ++ "B") ∧
      (|v| < 10 ^ 9 → 10 ^ 6 ≤ |v| →
        format_number v "" d = fixedFormat (v / 10 ^ 6) d ++ "M") ∧
      (|v| < 10 ^ 6 → 10 ^ 3 ≤ |v| →
        format_number v "" d = fixedFormat (v / 10 ^ 3) d ++ "K") ∧
      (|v| < 10 ^ 3 → format_number v "" d = fixedFormat v d) ∧
      (v < 0 → strHead (format_number v "" d) = some '-') ∧
      (0 ≤ v → format_number v "" d = format_number |v| "" d) := by
  constructor
  · refine ⟨?_, ?_, ?_, ?_⟩
    · rw [format_number]
      norm_num
      rw [fixedFormat]
      norm_num [roundHalfEven]
      decide
    · have hK : fixedFormat ((3:ℚ)/2) 1 = "1.5" := by
        simp only [fixedFormat]
        rw [show |(3:ℚ)/2| * 10 ^ 1 = 15 by
          rw [abs_of_nonneg (by norm_num : (0:ℚ) ≤ 3/2)]; norm_num]
        rw [show roundHalfEven 15 = 15 by rw [roundHalfEven]; norm_num]
        rw [if_neg (by norm_num : ¬ ((3:ℚ)/2 < 0))]
        decide
      rw [format_number]
      norm_num
      rw [hK]
      decide
    · have hM : fixedFormat ((23:ℚ)/10) 0 = "2" := by
        simp only [fixedFormat]
        rw [show |(23:ℚ)/10| * 10 ^ 0 = 23/10 by
          rw [abs_of_nonneg (by norm_num : (0:ℚ) ≤ 23/10)]; norm_num]
        have hf : ⌊(23:ℚ)/10⌋ = 2 := by norm_num
        rw [show roundHalfEven ((23:ℚ)/10) = 2 by
          simp only [roundHalfEven]; rw [hf]; norm_num]
        rw [if_neg (by norm_num : ¬ ((23:ℚ)/10 < 0))]
        decide
      rw [format_number]
      norm_num
      rw [hM]
      decide
    · have hK : fixedFormat (-5 : ℚ) 0 = "-5" := by
        simp only [fixedFormat]
        rw [show |(-5:ℚ)| * 10 ^ 0 = 5 by
          rw [abs_of_nonpos (by norm_num : (-5:ℚ) ≤ 0)]; norm_num]
        rw [show roundHalfEven 5 = 5 by rw [roundHalfEven]; norm_num]
        rw [if_pos (by norm_num : (-5:ℚ) < 0)]
        decide
      rw [format_number]
      norm_num
      rw [hK]
      decide
  · intro v d
    refine ⟨?_, ?_, ?_, ?_, ?_, ?_⟩
    · intro h9
      simp only [format_number]
      rw [if_pos h9]
      rfl
    · intro h9 h6
      simp only [format_number]
      rw [if_neg (not_le.mpr h9), if_pos h6]
      rfl
    · intro h6 h3
      have h9 : ¬ (10 ^ 9 ≤ |v|) := by
        intro h
        exact absurd (lt_of_le_of_lt h (lt_of_lt_of_le h6 (by norm_num)))
          (lt_irrefl _)
      simp only [format_number]
      rw [if_neg h9, if_neg (not_le.mpr h6), if_pos h3]
      rfl
    · intro h3
      have h6 : ¬ (10 ^ 6 ≤ |v|) := fun h =>
        absurd (lt_of_le_of_lt h (lt_of_lt_of_le h3 (by norm_num))) (lt_irrefl _)
      have h9 : ¬ (10 ^ 9 ≤ |v|) := fun h =>
        absurd (lt_of_le_of_lt h (lt_of_lt_of_le h3 (by norm_num))) (lt_irrefl _)
      simp only [format_number]
      rw [if_neg h9, if_neg h6, if_neg (not_le.mpr h3)]
      rfl
    · intro hv
      by_cases h9 : 10 ^ 9 ≤ |v|
      · simp only [format_number]
        rw [if_pos h9]
        exact strHead_append_of_head _ _ _
          (fixedFormat_neg_head _ _ (div_neg_of_neg_of_pos hv (by norm_num)))
      · by_cases h6 : 10 ^ 6 ≤ |v|
        · simp only [format_number]
          rw [if_neg h9, if_pos h6]
          exact strHead_append_of_head _ _ _
            (fixedFormat_neg_head _ _ (div_neg_of_neg_of_pos hv (by norm_num)))
        · by_cases h3 : 10 ^ 3 ≤ |v|
          · simp only [format_number]
            rw [if_neg h9, if_neg h6, if_pos h3]
            exact strHead_append_of_head _ _ _
              (fixedFormat_neg_head _ _ (div_neg_of_neg_of_pos hv (by norm_num)))
          · simp only [format_number]
            rw [if_neg h9, if_neg h6, if_neg h3]
            exact fixedFormat_neg_head _ _ hv
    · intro hv
      rw [abs_of_nonneg hv]

/-- Witness for `format_number_spec` at the K-suffix branch. -/
theorem format_number_spec_witness :
    format_number (-5000 : ℚ) "" 0 = fixedFormat ((-5000 : ℚ) / 10 ^ 3) 0 ++ "K" :=
  ((format_number_spec.2 (-5000) 0).2.2.1 (by norm_num) (by norm_num))

/-- Helper: over binary labels, the sorted distinct values are the
present ones among 0 and 1, in order. -/
theorem uniqueSorted_binary :
    ∀ l : List ℕ, (∀ y ∈ l, y ≤ 1) →
      uniqueSorted l = (if 0 ∈ l then [0] else []) ++ (if 1 ∈ l then [1] else [])
  | [], _ => by simp [uniqueSorted]
  | x :: xs, h => by
    have hx := h x (List.mem_cons_self _ _)
    have hxs : ∀ y ∈ xs, y ≤ 1 := fun y hy => h y (List.mem_cons_of_mem _ hy)
    have ih := uniqueSorted_binary xs hxs
    simp only [uniqueSorted]
    rw [ih]
    rcases Nat.le_one_iff_eq_zero_or_eq_one.mp hx with rfl | rfl
    · by_cases h0 : 0 ∈ xs <;> by_cases h1 : 1 ∈ xs <;>
        simp [h0, h1, List.mem_cons, insertAsc]
    · by_cases h0 : 0 ∈ xs <;> by_cases h1 : 1 ∈ xs <;>
        simp [h0, h1, List.mem_cons, insertAsc]

/-- Helper: the sorted distinct values of a non-empty constant list
form the singleton of that constant. -/
theorem uniqueSorted_const :
    ∀ (l : List ℕ) (c : ℕ), l ≠ [] → (∀ y ∈ l, y = c) → uniqueSorted l = [c]
  | [], _, hne, _ => absurd rfl hne
  | x :: xs, c, _, h => by
    have hx := h x (List.mem_cons_self _ _)
    subst hx
    by_cases hxs : xs = []
    · subst hxs
      simp [uniqueSorted, insertAsc]
    · have ih := uniqueSorted_const xs x hxs
        (fun y hy => h y (List.mem_cons_of_mem _ hy))
      show insertAsc x (uniqueSorted xs) = [x]
      rw [ih]
      simp [insertAsc]

/-- Helper: over binary pairs, the four cell counts partition the
list. -/
theorem countP_four_cells :
    ∀ l : List (ℕ × ℕ), (∀ x ∈ l, x.1 ≤ 1 ∧ x.2 ≤ 1) →
      l.countP (fun x => x.1 == 0 && x.2 == 0) +
        l.countP (fun x => x.1 == 0 && x.2 == 1) +
        l.countP (fun x => x.1 == 1 && x.2 == 0) +
        l.countP (fun x => x.1 == 1 && x.2 == 1) = l.length
  | [], _ => by simp
  | a :: l, h => by
    have ha := h a (List.mem_cons_self _ _)
    have ih := countP_four_cells l (fun x hx => h x (List.mem_cons_of_mem _ hx))
    rcases Nat.le_one_iff_eq_zero_or_eq_one.mp ha.1 with h1 | h1 <;>
      rcases Nat.le_one_iff_eq_zero_or_eq_one.mp ha.2 with h2 | h2 <;>
      simp [List.countP_cons, h1, h2] <;> omega

/-- Claim C1 (amended): for equal-length binary-label sequences in which
both label values occur (across the two sequences), the confusion matrix
is the 2×2 matrix `[[tn, fp], [fn, tp]]` whose cells count the
actual/predicted combinations (0,0), (0,1), (1,0), (1,1) respectively,
and the four cells sum to the input length; on `actual = [0,0,1,1]` and
`predicted = [0,1,1,1]` the cells are `tn = 1, fp = 1, fn = 0, tp = 2`. -/
theorem confusionMatrix_binary_cells :
    (∀ yTrue yPred : List ℕ, yTrue.length = yPred.length →
      (∀ y ∈ yTrue, y ≤ 1) → (∀ y ∈ yPred, y ≤ 1) →
      0 ∈ yTrue ++ yPred → 1 ∈ yTrue ++ yPred →
      confusionMatrix yTrue yPred =
        [[cmCount yTrue yPred 0 0, cmCount yTrue yPred 0 1],
         [cmCount yTrue yPred 1 0, cmCount yTrue yPred 1 1]] ∧
      cmCount yTrue yPred 0 0 + cmCount yTrue yPred 0 1 +
        cmCount yTrue yPred 1 0 + cmCount yTrue yPred 1 1 = yTrue.length) ∧
    (confusionMatrix [0, 0, 1, 1] [0, 1, 1, 1] = [[1, 1], [0, 2]] ∧
      cmCount [0, 0, 1, 1] [0, 1, 1, 1] 0 0 = 1 ∧
      cmCount [0, 0, 1, 1] [0, 1, 1, 1] 0 1 = 1 ∧
      cmCount [0, 0, 1, 1] [0, 1, 1, 1] 1 0 = 0 ∧
      cmCount [0, 0, 1, 1] [0, 1, 1, 1] 1 1 = 2) := by
  constructor
  · intro yt yp hlen h1 h2 h0m h1m
    have hall : ∀ y ∈ yt ++ yp, y ≤ 1 := by
      intro y hy
      rcases List.mem_append.mp hy with h | h
      exacts [h1 y h, h2 y h]
    have hlab : uniqueSorted (yt ++ yp) = [0, 1] := by
      rw [uniqueSorted_binary _ hall, if_pos h0m, if_pos h1m]
      rfl
    constructor
    · simp only [confusionMatrix, hlab]
      rfl
    · have hzip : ∀ x ∈ yt.zip yp, x.1 ≤ 1 ∧ x.2 ≤ 1 := by
        intro x hx
        obtain ⟨a, b⟩ := x
        obtain ⟨ha, hb⟩ := List.of_mem_zip hx
        exact ⟨h1 a ha, h2 b hb⟩
      have hsum := countP_four_cells (yt.zip yp) hzip
      rw [List.length_zip, ← hlen, min_self] at hsum
      exact hsum
  · exact ⟨by decide, by decide, by decide, by decide, by decide⟩

/-- Witness for `confusionMatrix_binary_cells` at the specification's
example input. -/
theorem confusionMatrix_binary_cells_witness :
    confusionMatrix [0, 0, 1, 1] [0, 1, 1, 1] =
      [[cmCount [0, 0, 1, 1] [0, 1, 1, 1] 0 0, cmCount [0, 0, 1, 1] [0, 1, 1, 1] 0 1],
       [cmCount [0, 0, 1, 1] [0, 1, 1, 1] 1 0, cmCount [0, 0, 1, 1] [0, 1, 1, 1] 1 1]] ∧
    cmCount [0, 0, 1, 1] [0, 1, 1, 1] 0 0 + cmCount [0, 0, 1, 1] [0, 1, 1, 1] 0 1 +
      cmCount [0, 0, 1, 1] [0, 1, 1, 1] 1 0 + cmCount [0, 0, 1, 1] [0, 1, 1, 1] 1 1 =
      ([0, 0, 1, 1] : List ℕ).length :=
  confusionMatrix_binary_cells.1 [0, 0, 1, 1] [0, 1, 1, 1] rfl
    (by decide) (by decide) (by decide) (by decide)

/-- Claim C10: the confusion matrix is square, with one row and one
column per distinct label value occurring in either input; when the
two equal-length non-empty inputs carry a single distinct label value,
the result is the 1×1 matrix holding the input length, so the four-cell
decomposition exists only when both label values occur. -/
theorem confusionMatrix_square_single_class :
    (∀ yTrue yPred : List ℕ,
      (confusionMatrix yTrue yPred).length = (uniqueSorted (yTrue ++ yPred)).length ∧
      ∀ row ∈ confusionMatrix yTrue yPred,
        row.length = (uniqueSorted (yTrue ++ yPred)).length) ∧
    (∀ (yTrue yPred : List ℕ) (c : ℕ), yTrue ≠ [] → yTrue.length = yPred.length →
      (∀ y ∈ yTrue ++ yPred, y = c) →
      confusionMatrix yTrue yPred = [[yTrue.length]]) := by
  constructor
  · intro yt yp
    constructor
    · simp [confusionMatrix]
    · intro row hrow
      simp only [confusionMatrix, List.mem_map] at hrow
      obtain ⟨a, _, rfl⟩ := hrow
      simp
  · intro yt yp c hne hlen hall
    have hne2 : yt ++ yp ≠ [] := by
      intro h
      exact hne (List.append_eq_nil.mp h).1
    have hlab := uniqueSorted_const (yt ++ yp) c hne2 hall
    have hcell : cmCount yt yp c c = yt.length := by
      have hsat : ∀ x ∈ yt.zip yp, (fun x : ℕ × ℕ => x.1 == c && x.2 == c) x = true := by
        intro x hx
        obtain ⟨a, b⟩ := x
        obtain ⟨ha, hb⟩ := List.of_mem_zip hx
        have h1 := hall a (List.mem_append.mpr (Or.inl ha))
        have h2 := hall b (List.mem_append.mpr (Or.inr hb))
        simp [h1, h2]
      have := List.countP_eq_length.mpr hsat
      rw [cmCount, this, List.length_zip, ← hlen, min_self]
    simp only [confusionMatrix, hlab, List.map_cons, List.map_nil, hcell]

/-- Witness for `confusionMatrix_square_single_class` at a single-class
input. -/
theorem confusionMatrix_square_single_class_witness :
    confusionMatrix [1, 1] [1, 1] = [[([1, 1] : List ℕ).length]] :=
  confusionMatrix_square_single_class.2 [1, 1] [1, 1] 1 (by decide) rfl (by decide)

/-- Helper: `idxBest` returns an in-range index whose entry no other
entry beats, and it beats every entry strictly before it (so it is the
first optimum), provided `better` is asymmetric and negatively
transitive. -/
theorem idxBest_spec (better : ℚ → ℚ → Prop) [DecidableRel better]
    (hasym : ∀ a b, better a b → ¬ better b a)
    (hnt : ∀ a b c, ¬ better a b → ¬ better b c → ¬ better a c) :
    ∀ l : List ℚ, l ≠ [] →
      idxBest better l < l.length ∧
      (∀ v ∈ l, ¬ better v (l.getD (idxBest better l) 0)) ∧
      (∀ j, j < idxBest better l → better (l.getD (idxBest better l) 0) (l.getD j 0))
  | [], h => absurd rfl h
  | [x], _ => by
    refine ⟨by simp [idxBest], ?_, ?_⟩
    · intro v hv
      simp only [List.mem_singleton] at hv
      subst hv
      simp only [idxBest, List.getD_cons_zero]
      exact fun hb => hasym _ _ hb hb
    · intro j hj
      simp [idxBest] at hj
  | x :: y :: ys, _ => by
    obtain ⟨ih1, ih2, ih3⟩ := idxBest_spec better hasym hnt (y :: ys) (by simp)
    by_cases hbx : better ((y :: ys).getD (idxBest better (y :: ys)) 0) x
    · have hidx : idxBest better (x :: y :: ys) = idxBest better (y :: ys) + 1 := by
        simp only [idxBest, if_pos hbx]
      refine ⟨?_, ?_, ?_⟩
      · rw [hidx]
        simpa using ih1
      · intro v hv
        rw [hidx, List.getD_cons_succ]
        rcases List.mem_cons.mp hv with rfl | hv
        · exact hasym _ _ hbx
        · exact ih2 v hv
      · intro j hj
        rw [hidx, List.getD_cons_succ]
        cases j with
        | zero => simpa using hbx
        | succ k =>
          rw [List.getD_cons_succ]
          exact ih3 k (by omega)
    · have hidx : idxBest better (x :: y :: ys) = 0 := by
        simp only [idxBest, if_neg hbx]
      refine ⟨?_, ?_, ?_⟩
      · rw [hidx]
        simp
      · intro v hv
        rw [hidx, List.getD_cons_zero]
        rcases List.mem_cons.mp hv with rfl | hv
        · exact fun hb => hasym _ _ hb hb
        · exact hnt v _ x (ih2 v hv) hbx
      · intro j hj
        rw [hidx] at hj
        omega

/-- Claim C6: for a non-empty table, `rowAtMax` returns the full row at
which the column is maximal, and among tied rows the first in table
order: every strictly earlier row has a strictly smaller column value;
symmetrically `rowAtMin` returns the first row attaining the minimum. -/
theorem rowAtMax_rowAtMin_spec {α : Type} (T : List α) (f : α → ℚ) (h : T ≠ []) :
    (∃ i r, rowAtMax T f = some r ∧ T.get? i = some r ∧
      (∀ s ∈ T, f s ≤ f r) ∧ ∀ j s, j < i → T.get? j = some s → f s < f r) ∧
    (∃ i r, rowAtMin T f = some r ∧ T.get? i = some r ∧
      (∀ s ∈ T, f r ≤ f s) ∧ ∀ j s, j < i → T.get? j = some s → f r < f s) := by
  have hmap : T.map f ≠ [] := by simpa using h
  constructor
  · obtain ⟨h1, h2, h3⟩ := idxBest_spec (fun a b => b < a)
      (fun a b hab => not_lt_of_gt hab)
      (fun a b c hab hbc => by
        simp only [not_lt] at hab hbc ⊢
        exact hab.trans hbc)
      (T.map f) hmap
    rw [List.length_map] at h1
    have hr := List.get?_eq_get (l := T) h1
    refine ⟨idxBest (fun a b => b < a) (T.map f), T.get ⟨_, h1⟩, hr, hr, ?_, ?_⟩
    · have hval : (T.map f).getD (idxBest (fun a b => b < a) (T.map f)) 0 = f (T.get ⟨_, h1⟩) := by
        rw [List.getD_eq_getElem?_getD, ← List.get?_eq_getElem?, List.get?_map, hr]
        rfl
      intro s hs
      have := h2 (f s) (List.mem_map_of_mem f hs)
      rw [hval] at this
      exact not_lt.mp this
    · have hval : (T.map f).getD (idxBest (fun a b => b < a) (T.map f)) 0 = f (T.get ⟨_, h1⟩) := by
        rw [List.getD_eq_getElem?_getD, ← List.get?_eq_getElem?, List.get?_map, hr]
        rfl
      intro j s hj hjs
      have := h3 j hj
      rw [hval] at this
      have hjval : (T.map f).getD j 0 = f s := by
        rw [List.getD_eq_getElem?_getD, ← List.get?_eq_getElem?, List.get?_map, hjs]
        rfl
      rw [hjval] at this
      exact this
  · obtain ⟨h1, h2, h3⟩ := idxBest_spec (fun a b => a < b)
      (fun a b hab => not_lt_of_gt hab)
      (fun a b c hab hbc => by
        simp only [not_lt] at hab hbc ⊢
        exact hbc.trans hab)
      (T.map f) hmap
    rw [List.length_map] at h1
    have hr := List.get?_eq_get (l := T) h1
    refine ⟨idxBest (fun a b => a < b) (T.map f), T.get ⟨_, h1⟩, hr, hr, ?_, ?_⟩
    · have hval : (T.map f).getD (idxBest (fun a b => a < b) (T.map f)) 0 = f (T.get ⟨_, h1⟩) := by
        rw [List.getD_eq_getElem?_getD, ← List.get?_eq_getElem?, List.get?_map, hr]
        rfl
      intro s hs
      have := h2 (f s) (List.mem_map_of_mem f hs)
      rw [hval] at this
      exact not_lt.mp this
    · have hval : (T.map f).getD (idxBest (fun a b => a < b) (T.map f)) 0 = f (T.get ⟨_, h1⟩) := by
        rw [List.getD_eq_getElem?_getD, ← List.get?_eq_getElem?, List.get?_map, hr]
        rfl
      intro j s hj hjs
      have := h3 j hj
      rw [hval] at this
      have hjval : (T.map f).getD j 0 = f s := by
        rw [List.getD_eq_getElem?_getD, ← List.get?_eq_getElem?, List.get?_map, hjs]
        rfl
      rw [hjval] at this
      exact this

/-- Witness for `rowAtMax_rowAtMin_spec` on a concrete table with a tie
at the maximum. -/
theorem rowAtMax_rowAtMin_spec_witness :
    (∃ i r, rowAtMax [((1:ℚ), (5:ℚ)), (2, 9), (3, 9), (4, 1)] Prod.snd = some r ∧
      ([((1:ℚ), (5:ℚ)), (2, 9), (3, 9), (4, 1)]).get? i = some r ∧
      (∀ s ∈ [((1:ℚ), (5:ℚ)), (2, 9), (3, 9), (4, 1)], s.2 ≤ r.2) ∧
      ∀ j s, j < i →
        ([((1:ℚ), (5:ℚ)), (2, 9), (3, 9), (4, 1)]).get? j = some s → s.2 < r.2) ∧
    (∃ i r, rowAtMin [((1:ℚ), (5:ℚ)), (2, 9), (3, 9), (4, 1)] Prod.snd = some r ∧
      ([((1:ℚ), (5:ℚ)), (2, 9), (3, 9), (4, 1)]).get? i = some r ∧
      (∀ s ∈ [((1:ℚ), (5:ℚ)), (2, 9), (3, 9), (4, 1)], r.2 ≤ s.2) ∧
      ∀ j s, j < i →
        ([((1:ℚ), (5:ℚ)), (2, 9), (3, 9), (4, 1)]).get? j = some s → r.2 < s.2) :=
  rowAtMax_rowAtMin_spec [((1:ℚ), (5:ℚ)), (2, 9), (3, 9), (4, 1)] Prod.snd
    (by decide)
